import Mathlib

/-!
Verification of the Black-Scholes notebook pricing library.

The development shallowly embeds the notebook's five functions over the real
numbers: `black_scholes`, `black_scholes_greeks`, `black_scholes_with_dividends`,
`monte_carlo_option_price` and `implied_volatility`.  `scipy.stats.norm.cdf/pdf`
are embedded as the standard normal distribution functions `normCdf`/`normPdf`
defined by integration, and `scipy.optimize.brentq` (an external library
routine) is modelled from the spec as an exact bracketed root finder.
-/

open MeasureTheory

/-- Standard normal probability density, the embedding of `scipy.stats.norm.pdf`. -/
noncomputable def normPdf (x : ℝ) : ℝ :=
  Real.exp (-x ^ 2 / 2) / Real.sqrt (2 * Real.pi)

/-- Standard normal cumulative distribution, the embedding of `scipy.stats.norm.cdf`. -/
noncomputable def normCdf (x : ℝ) : ℝ :=
  ∫ t in Set.Iic x, normPdf t

lemma normPdf_pos (x : ℝ) : 0 < normPdf x := by
  have h2π : 0 < 2 * Real.pi := by positivity
  exact div_pos (Real.exp_pos _) (Real.sqrt_pos.mpr h2π)

lemma normPdf_even (x : ℝ) : normPdf (-x) = normPdf x := by
  simp [normPdf, neg_sq]

lemma normPdf_continuous : Continuous normPdf := by
  unfold normPdf
  fun_prop

lemma integrable_normPdf : Integrable normPdf := by
  have h : Integrable (fun x : ℝ => Real.exp (-(1 / 2 : ℝ) * x ^ 2)) :=
    integrable_exp_neg_mul_sq (by norm_num)
  have h2 : Integrable (fun x : ℝ => Real.exp (-(1 / 2 : ℝ) * x ^ 2) / Real.sqrt (2 * Real.pi)) :=
    h.div_const _
  refine h2.congr ?_
  filter_upwards with x
  unfold normPdf
  ring_nf

lemma integral_normPdf : ∫ x : ℝ, normPdf x = 1 := by
  have hg : ∫ x : ℝ, Real.exp (-(1 / 2 : ℝ) * x ^ 2) = Real.sqrt (Real.pi / (1 / 2)) :=
    integral_gaussian (1 / 2)
  have hx : ∀ x : ℝ, normPdf x = Real.exp (-(1 / 2 : ℝ) * x ^ 2) / Real.sqrt (2 * Real.pi) := by
    intro x; unfold normPdf; ring_nf
  calc ∫ x : ℝ, normPdf x
      = ∫ x : ℝ, Real.exp (-(1 / 2 : ℝ) * x ^ 2) / Real.sqrt (2 * Real.pi) := by
        exact integral_congr_ae (Filter.Eventually.of_forall hx)
    _ = (∫ x : ℝ, Real.exp (-(1 / 2 : ℝ) * x ^ 2)) / Real.sqrt (2 * Real.pi) :=
        integral_div _ _
    _ = 1 := by
        rw [hg]
        have : Real.pi / (1 / 2) = 2 * Real.pi := by ring
        rw [this]
        have h2π : (0 : ℝ) < 2 * Real.pi := by positivity
        exact div_self (ne_of_gt (Real.sqrt_pos.mpr h2π))

lemma normCdf_add_neg (x : ℝ) : normCdf x + normCdf (-x) = 1 := by
  have hsym : normCdf (-x) = ∫ t in Set.Ioi x, normPdf t := by
    have h1 : (∫ t in Set.Iic (-x), normPdf (-t)) = ∫ t in Set.Ioi x, normPdf t := by
      simpa using integral_comp_neg_Iic (-x) normPdf
    have h2 : (∫ t in Set.Iic (-x), normPdf (-t)) = ∫ t in Set.Iic (-x), normPdf t :=
      setIntegral_congr_fun measurableSet_Iic (fun t _ => normPdf_even t)
    rw [normCdf, ← h2, h1]
  rw [hsym, normCdf]
  rw [intervalIntegral.integral_Iic_add_Ioi
    integrable_normPdf.integrableOn integrable_normPdf.integrableOn]
  exact integral_normPdf

lemma normCdf_pos (x : ℝ) : 0 < normCdf x := by
  rw [normCdf]
  rw [setIntegral_pos_iff_support_of_nonneg_ae
    (Filter.Eventually.of_forall (fun t => (normPdf_pos t).le))
    (integrable_normPdf.integrableOn)]
  have hs : Function.support normPdf = Set.univ := by
    ext t; simp [Function.support, ne_of_gt (normPdf_pos t)]
  rw [hs, Set.univ_inter]
  simp [Real.volume_Iic]

lemma normCdf_lt_one (x : ℝ) : normCdf x < 1 := by
  have h := normCdf_add_neg x
  have := normCdf_pos (-x)
  linarith

lemma normCdf_nonneg (x : ℝ) : 0 ≤ normCdf x := (normCdf_pos x).le

lemma normCdf_le_one (x : ℝ) : normCdf x ≤ 1 := (normCdf_lt_one x).le

lemma hasDerivAt_normCdf (x : ℝ) : HasDerivAt normCdf (normPdf x) x := by
  have hrepr : ∀ u : ℝ, normCdf u = normCdf 0 + ∫ t in (0 : ℝ)..u, normPdf t := by
    intro u
    have := intervalIntegral.integral_Iic_sub_Iic
      (μ := volume) (f := normPdf) (a := (0 : ℝ)) (b := u)
      integrable_normPdf.integrableOn integrable_normPdf.integrableOn
    rw [normCdf, normCdf]
    linarith [this]
  have hFTC : HasDerivAt (fun u => ∫ t in (0 : ℝ)..u, normPdf t) (normPdf x) x :=
    (normPdf_continuous.integral_hasStrictDerivAt 0 x).hasDerivAt
  have h2 : HasDerivAt (fun u => normCdf 0 + ∫ t in (0 : ℝ)..u, normPdf t) (normPdf x) x :=
    hFTC.const_add _
  exact h2.congr_of_eventuallyEq (Filter.Eventually.of_forall hrepr)

/-- Errors surfaced by the pricing routines: `invalidInput` is the notebook's
`ValueError("option_type must be 'call' or 'put'")`; `noRootInBracket` is the
error `scipy.optimize.brentq` raises when `f(a)` and `f(b)` have the same sign. -/
inductive PriceError where
  | invalidInput : PriceError
  | noRootInBracket : PriceError
deriving DecidableEq

/-- The quantity `d1 = (log(S/K) + (r + 0.5*sigma^2)*T) / (sigma*sqrt(T))`
computed at the top of `black_scholes` and `black_scholes_greeks`. -/
noncomputable def d1 (S K T r sigma : ℝ) : ℝ :=
  (Real.log (S / K) + (r + 0.5 * sigma ^ 2) * T) / (sigma * Real.sqrt T)

/-- The quantity `d2 = d1 - sigma*sqrt(T)`. -/
noncomputable def d2 (S K T r sigma : ℝ) : ℝ :=
  d1 S K T r sigma - sigma * Real.sqrt T

/-- Call branch of `black_scholes`: `S*norm.cdf(d1) - K*exp(-r*T)*norm.cdf(d2)`. -/
noncomputable def bs_call (S K T r sigma : ℝ) : ℝ :=
  S * normCdf (d1 S K T r sigma) - K * Real.exp (-r * T) * normCdf (d2 S K T r sigma)

/-- Put branch of `black_scholes`: `K*exp(-r*T)*norm.cdf(-d2) - S*norm.cdf(-d1)`. -/
noncomputable def bs_put (S K T r sigma : ℝ) : ℝ :=
  K * Real.exp (-r * T) * normCdf (-(d2 S K T r sigma)) - S * normCdf (-(d1 S K T r sigma))

/-- Embedding of the notebook's `black_scholes(S, K, T, r, sigma, option_type)`:
returns the call branch for `'call'`, the put branch for `'put'`, and raises
`ValueError` (here `PriceError.invalidInput`) otherwise. -/
noncomputable def black_scholes (S K T r sigma : ℝ) (option_type : String) :
    Except PriceError ℝ :=
  if option_type = "call" then Except.ok (bs_call S K T r sigma)
  else if option_type = "put" then Except.ok (bs_put S K T r sigma)
  else Except.error PriceError.invalidInput

/-- The dictionary returned by `black_scholes_greeks`: exactly the five keys
`Delta`, `Gamma`, `Vega`, `Theta`, `Rho`. -/
structure GreeksResult where
  Delta : ℝ
  Gamma : ℝ
  Vega : ℝ
  Theta : ℝ
  Rho : ℝ

/-- Embedding of `black_scholes_greeks(S, K, T, r, sigma, option_type)`.  The
`call` comparisons mirror the source's `if option_type == 'call' else` selections;
every non-`'call'` string takes the put-side values; no error path exists. -/
noncomputable def black_scholes_greeks (S K T r sigma : ℝ) (option_type : String) :
    GreeksResult :=
  let D1 := (Real.log (S / K) + (r + 0.5 * sigma ^ 2) * T) / (sigma * Real.sqrt T)
  let D2 := D1 - sigma * Real.sqrt T
  let delta := if option_type = "call" then normCdf D1 else normCdf D1 - 1
  let gamma := normPdf D1 / (S * sigma * Real.sqrt T)
  let vega := S * normPdf D1 * Real.sqrt T
  let theta_call := -S * normPdf D1 * sigma / (2 * Real.sqrt T)
    - r * K * Real.exp (-r * T) * normCdf D2
  let theta_put := -S * normPdf D1 * sigma / (2 * Real.sqrt T)
    + r * K * Real.exp (-r * T) * normCdf (-D2)
  let theta := if option_type = "call" then theta_call else theta_put
  let rho_call := K * T * Real.exp (-r * T) * normCdf D2
  let rho_put := -K * T * Real.exp (-r * T) * normCdf (-D2)
  let rho := if option_type = "call" then rho_call else rho_put
  { Delta := delta, Gamma := gamma, Vega := vega / 100,
    Theta := theta / 365, Rho := rho / 100 }

/-- Embedding of `black_scholes_with_dividends(S, K, T, r, sigma, q, option_type)`.
Note the bare `else`: any option type other than `'call'` is priced as a put and
no exception is ever raised. -/
noncomputable def black_scholes_with_dividends (S K T r sigma q : ℝ)
    (option_type : String) : ℝ :=
  let D1 := (Real.log (S / K) + (r - q + 0.5 * sigma ^ 2) * T) / (sigma * Real.sqrt T)
  let D2 := D1 - sigma * Real.sqrt T
  if option_type = "call" then
    S * Real.exp (-q * T) * normCdf D1 - K * Real.exp (-r * T) * normCdf D2
  else
    K * Real.exp (-r * T) * normCdf (-D2) - S * Real.exp (-q * T) * normCdf (-D1)

/-- Embedding of `monte_carlo_option_price(S, K, T, r, sigma, simulations,
option_type)`.  The numpy global generator is modelled by an explicit parameter
`gen : ℕ → ℕ → ℝ` mapping a seed and a draw index to a variate; the source's
`np.random.seed(42)` followed by `np.random.standard_normal(simulations)` becomes
the stream `gen 42`.  The bare `else` prices any non-`'call'` type as a put. -/
noncomputable def monte_carlo_option_price (gen : ℕ → ℕ → ℝ) (S K T r sigma : ℝ)
    (simulations : ℕ) (option_type : String) : ℝ :=
  let Z : ℕ → ℝ := gen 42
  let ST : ℕ → ℝ := fun i =>
    S * Real.exp ((r - 0.5 * sigma ^ 2) * T + sigma * Real.sqrt T * Z i)
  let payoff : ℕ → ℝ := fun i =>
    if option_type = "call" then max (ST i - K) 0 else max (K - ST i) 0
  Real.exp (-r * T) * ((∑ i in Finset.range simulations, payoff i) / simulations)

/-- Modelled from the spec: `scipy.optimize.brentq` is an external library
routine not present in this repository.  Per the spec it is a bracketed
root-finder that "fails with a NoRootInBracket error when the objective does not
change sign across" the bracket and otherwise converges to a root; convergence
is modelled exactly, as the choice of a root of the objective inside the
bracket.  An error raised by the objective itself propagates, as a Python
exception would out of `brentq`'s evaluations of `f`. -/
noncomputable def brentq (f : ℝ → Except PriceError ℝ) (a b : ℝ) :
    Except PriceError ℝ :=
  match f a with
  | Except.error e => Except.error e
  | Except.ok fa =>
    match f b with
    | Except.error e => Except.error e
    | Except.ok fb =>
      letI : Decidable (∃ x, x ∈ Set.Icc a b ∧ f x = Except.ok 0) :=
        Classical.propDecidable _
      if 0 < fa * fb then Except.error PriceError.noRootInBracket
      else if h : ∃ x, x ∈ Set.Icc a b ∧ f x = Except.ok 0 then Except.ok h.choose
      else Except.error PriceError.noRootInBracket

/-- Embedding of `implied_volatility(target_price, S, K, T, r, option_type)`:
Brent root-finding of `sigma ↦ black_scholes(S,K,T,r,sigma,option_type) -
target_price` over the bracket `[1e-5, 3.0]`. -/
noncomputable def implied_volatility (target_price S K T r : ℝ)
    (option_type : String) : Except PriceError ℝ :=
  brentq (fun sigma => (black_scholes S K T r sigma option_type).map
    (fun p => p - target_price)) (1 / 100000) 3

lemma d1_eq (S K T r sigma : ℝ) (hT : 0 < T) (hsigma : 0 < sigma) :
    d1 S K T r sigma
      = (Real.log (S / K) + r * T) / (sigma * Real.sqrt T) + sigma * Real.sqrt T / 2 := by
  have hst : (0 : ℝ) < sigma * Real.sqrt T := mul_pos hsigma (Real.sqrt_pos.mpr hT)
  have hst2 : (sigma * Real.sqrt T) ^ 2 = sigma ^ 2 * T := by
    rw [mul_pow, Real.sq_sqrt hT.le]
  rw [d1]
  field_simp
  nlinarith [hst2]

lemma d2_eq (S K T r sigma : ℝ) (hT : 0 < T) (hsigma : 0 < sigma) :
    d2 S K T r sigma
      = (Real.log (S / K) + r * T) / (sigma * Real.sqrt T) - sigma * Real.sqrt T / 2 := by
  rw [d2, d1_eq S K T r sigma hT hsigma]
  ring

lemma sq_d1_sub_sq_d2 (S K T r sigma : ℝ) (hT : 0 < T) (hsigma : 0 < sigma) :
    d1 S K T r sigma ^ 2 - d2 S K T r sigma ^ 2 = 2 * (Real.log (S / K) + r * T) := by
  have hst : (0 : ℝ) < sigma * Real.sqrt T := mul_pos hsigma (Real.sqrt_pos.mpr hT)
  rw [d1_eq S K T r sigma hT hsigma, d2_eq S K T r sigma hT hsigma]
  field_simp
  ring

lemma key_identity (S K T r sigma : ℝ) (hS : 0 < S) (hK : 0 < K) (hT : 0 < T)
    (hsigma : 0 < sigma) :
    S * normPdf (d1 S K T r sigma) = K * Real.exp (-r * T) * normPdf (d2 S K T r sigma) := by
  have hdiff := sq_d1_sub_sq_d2 S K T r sigma hT hsigma
  have hpdf : normPdf (d1 S K T r sigma)
      = normPdf (d2 S K T r sigma) * Real.exp (-(Real.log (S / K) + r * T)) := by
    rw [normPdf, normPdf, div_mul_eq_mul_div, ← Real.exp_add]
    congr 2
    linarith [hdiff]
  have hexpL : Real.exp (-(Real.log (S / K) + r * T)) = K / S * Real.exp (-r * T) := by
    rw [neg_add, Real.exp_add, Real.exp_neg, Real.exp_log (div_pos hS hK), inv_div]
    ring_nf
  rw [hpdf, hexpL]
  field_simp
  ring

lemma hasDerivAt_d1_S (S K T r sigma : ℝ) (hS : 0 < S) (hK : 0 < K) :
    HasDerivAt (fun s => d1 s K T r sigma)
      (S⁻¹ / (sigma * Real.sqrt T)) S := by
  have h1 : HasDerivAt
      (fun s => (Real.log s - Real.log K + (r + 0.5 * sigma ^ 2) * T) / (sigma * Real.sqrt T))
      (S⁻¹ / (sigma * Real.sqrt T)) S :=
    (((Real.hasDerivAt_log hS.ne').sub_const _).add_const _).div_const _
  refine h1.congr_of_eventuallyEq ?_
  filter_upwards [Ioi_mem_nhds hS] with s hs
  rw [d1, Real.log_div (ne_of_gt hs) hK.ne']

lemma hasDerivAt_d2_S (S K T r sigma : ℝ) (hS : 0 < S) (hK : 0 < K) :
    HasDerivAt (fun s => d2 s K T r sigma)
      (S⁻¹ / (sigma * Real.sqrt T)) S := by
  simpa using (hasDerivAt_d1_S S K T r sigma hS hK).sub_const (sigma * Real.sqrt T)

lemma hasDerivAt_bs_call_S (S K T r sigma : ℝ) (hS : 0 < S) (hK : 0 < K) (hT : 0 < T)
    (hsigma : 0 < sigma) :
    HasDerivAt (fun s => bs_call s K T r sigma) (normCdf (d1 S K T r sigma)) S := by
  have hd1 := hasDerivAt_d1_S S K T r sigma hS hK
  have hd2 := hasDerivAt_d2_S S K T r sigma hS hK
  set dd := S⁻¹ / (sigma * Real.sqrt T) with hdd
  have hc1 : HasDerivAt (fun s => normCdf (d1 s K T r sigma))
      (normPdf (d1 S K T r sigma) * dd) S :=
    (hasDerivAt_normCdf (d1 S K T r sigma)).comp S hd1
  have hc2 : HasDerivAt (fun s => normCdf (d2 s K T r sigma))
      (normPdf (d2 S K T r sigma) * dd) S :=
    (hasDerivAt_normCdf (d2 S K T r sigma)).comp S hd2
  have hmul : HasDerivAt (fun s => s * normCdf (d1 s K T r sigma))
      (1 * normCdf (d1 S K T r sigma) + S * (normPdf (d1 S K T r sigma) * dd)) S :=
    (hasDerivAt_id S).mul hc1
  have hsub : HasDerivAt
      (fun s => s * normCdf (d1 s K T r sigma)
        - K * Real.exp (-r * T) * normCdf (d2 s K T r sigma))
      (1 * normCdf (d1 S K T r sigma) + S * (normPdf (d1 S K T r sigma) * dd)
        - K * Real.exp (-r * T) * (normPdf (d2 S K T r sigma) * dd)) S :=
    hmul.sub (hc2.const_mul _)
  have hkey := key_identity S K T r sigma hS hK hT hsigma
  have heq : 1 * normCdf (d1 S K T r sigma) + S * (normPdf (d1 S K T r sigma) * dd)
      - K * Real.exp (-r * T) * (normPdf (d2 S K T r sigma) * dd)
      = normCdf (d1 S K T r sigma) := by
    linear_combination dd * hkey
  rw [heq] at hsub
  exact hsub.congr_of_eventuallyEq (Filter.Eventually.of_forall (fun s => rfl))

lemma hasDerivAt_bs_put_S (S K T r sigma : ℝ) (hS : 0 < S) (hK : 0 < K) (hT : 0 < T)
    (hsigma : 0 < sigma) :
    HasDerivAt (fun s => bs_put s K T r sigma) (-normCdf (-(d1 S K T r sigma))) S := by
  have hd1 := hasDerivAt_d1_S S K T r sigma hS hK
  have hd2 := hasDerivAt_d2_S S K T r sigma hS hK
  set dd := S⁻¹ / (sigma * Real.sqrt T) with hdd
  have hc1 : HasDerivAt (fun s => normCdf (-(d1 s K T r sigma)))
      (normPdf (-(d1 S K T r sigma)) * -dd) S :=
    (hasDerivAt_normCdf (-(d1 S K T r sigma))).comp S hd1.neg
  have hc2 : HasDerivAt (fun s => normCdf (-(d2 s K T r sigma)))
      (normPdf (-(d2 S K T r sigma)) * -dd) S :=
    (hasDerivAt_normCdf (-(d2 S K T r sigma))).comp S hd2.neg
  have hmul : HasDerivAt (fun s => s * normCdf (-(d1 s K T r sigma)))
      (1 * normCdf (-(d1 S K T r sigma)) + S * (normPdf (-(d1 S K T r sigma)) * -dd)) S :=
    (hasDerivAt_id S).mul hc1
  have hsub : HasDerivAt
      (fun s => K * Real.exp (-r * T) * normCdf (-(d2 s K T r sigma))
        - s * normCdf (-(d1 s K T r sigma)))
      (K * Real.exp (-r * T) * (normPdf (-(d2 S K T r sigma)) * -dd)
        - (1 * normCdf (-(d1 S K T r sigma))
          + S * (normPdf (-(d1 S K T r sigma)) * -dd))) S :=
    (hc2.const_mul _).sub hmul
  have hkey := key_identity S K T r sigma hS hK hT hsigma
  have heq : K * Real.exp (-r * T) * (normPdf (-(d2 S K T r sigma)) * -dd)
      - (1 * normCdf (-(d1 S K T r sigma)) + S * (normPdf (-(d1 S K T r sigma)) * -dd))
      = -normCdf (-(d1 S K T r sigma)) := by
    rw [normPdf_even, normPdf_even]
    linear_combination dd * hkey
  rw [heq] at hsub
  exact hsub.congr_of_eventuallyEq (Filter.Eventually.of_forall (fun s => rfl))

lemma bs_call_strictMonoOn_S (K T r sigma : ℝ) (hK : 0 < K) (hT : 0 < T)
    (hsigma : 0 < sigma) :
    StrictMonoOn (fun s => bs_call s K T r sigma) (Set.Ioi 0) := by
  apply strictMonoOn_of_deriv_pos (convex_Ioi 0)
  · intro s hs
    exact (hasDerivAt_bs_call_S s K T r sigma hs hK hT hsigma).continuousAt.continuousWithinAt
  · intro s hs
    rw [interior_Ioi] at hs
    rw [(hasDerivAt_bs_call_S s K T r sigma hs hK hT hsigma).deriv]
    exact normCdf_pos _

lemma bs_put_strictAntiOn_S (K T r sigma : ℝ) (hK : 0 < K) (hT : 0 < T)
    (hsigma : 0 < sigma) :
    StrictAntiOn (fun s => bs_put s K T r sigma) (Set.Ioi 0) := by
  apply strictAntiOn_of_deriv_neg (convex_Ioi 0)
  · intro s hs
    exact (hasDerivAt_bs_put_S s K T r sigma hs hK hT hsigma).continuousAt.continuousWithinAt
  · intro s hs
    rw [interior_Ioi] at hs
    rw [(hasDerivAt_bs_put_S s K T r sigma hs hK hT hsigma).deriv]
    simpa using normCdf_pos (-(d1 s K T r sigma))

lemma hasDerivAt_d1_sigma (S K T r sigma : ℝ) (hT : 0 < T) (hsigma : 0 < sigma) :
    HasDerivAt (fun v => d1 S K T r v)
      ((Real.log (S / K) + r * T) / Real.sqrt T * -(sigma ^ 2)⁻¹ + Real.sqrt T / 2) sigma := by
  have hsT : (0 : ℝ) < Real.sqrt T := Real.sqrt_pos.mpr hT
  have h1 : HasDerivAt
      (fun v : ℝ => (Real.log (S / K) + r * T) / Real.sqrt T * v⁻¹ + Real.sqrt T / 2 * v)
      ((Real.log (S / K) + r * T) / Real.sqrt T * -(sigma ^ 2)⁻¹ + Real.sqrt T / 2) sigma := by
    have ha : HasDerivAt (fun v : ℝ => (Real.log (S / K) + r * T) / Real.sqrt T * v⁻¹)
        ((Real.log (S / K) + r * T) / Real.sqrt T * -(sigma ^ 2)⁻¹) sigma :=
      (hasDerivAt_inv hsigma.ne').const_mul _
    have hb : HasDerivAt (fun v : ℝ => Real.sqrt T / 2 * v) (Real.sqrt T / 2) sigma := by
      simpa using (hasDerivAt_id sigma).const_mul (Real.sqrt T / 2)
    exact ha.add hb
  refine h1.congr_of_eventuallyEq ?_
  filter_upwards [Ioi_mem_nhds hsigma] with v hv
  have hv0 : (v : ℝ) ≠ 0 := ne_of_gt hv
  have hT2 : Real.sqrt T ^ 2 = T := Real.sq_sqrt hT.le
  rw [d1]
  field_simp
  linear_combination (-(v ^ 3) * Real.sqrt T) * hT2

lemma hasDerivAt_d2_sigma (S K T r sigma : ℝ) (hT : 0 < T) (hsigma : 0 < sigma) :
    HasDerivAt (fun v => d2 S K T r v)
      ((Real.log (S / K) + r * T) / Real.sqrt T * -(sigma ^ 2)⁻¹ + Real.sqrt T / 2
        - Real.sqrt T) sigma := by
  have hb : HasDerivAt (fun v : ℝ => v * Real.sqrt T) (Real.sqrt T) sigma := by
    simpa using (hasDerivAt_id sigma).mul_const (Real.sqrt T)
  exact (hasDerivAt_d1_sigma S K T r sigma hT hsigma).sub hb

lemma hasDerivAt_bs_call_sigma (S K T r sigma : ℝ) (hS : 0 < S) (hK : 0 < K) (hT : 0 < T)
    (hsigma : 0 < sigma) :
    HasDerivAt (fun v => bs_call S K T r v)
      (S * normPdf (d1 S K T r sigma) * Real.sqrt T) sigma := by
  set dd := (Real.log (S / K) + r * T) / Real.sqrt T * -(sigma ^ 2)⁻¹ + Real.sqrt T / 2
    with hdd
  have hc1 : HasDerivAt (fun v => normCdf (d1 S K T r v))
      (normPdf (d1 S K T r sigma) * dd) sigma :=
    (hasDerivAt_normCdf (d1 S K T r sigma)).comp sigma
      (hasDerivAt_d1_sigma S K T r sigma hT hsigma)
  have hc2 : HasDerivAt (fun v => normCdf (d2 S K T r v))
      (normPdf (d2 S K T r sigma) * (dd - Real.sqrt T)) sigma :=
    (hasDerivAt_normCdf (d2 S K T r sigma)).comp sigma
      (hasDerivAt_d2_sigma S K T r sigma hT hsigma)
  have hsub : HasDerivAt
      (fun v => S * normCdf (d1 S K T r v) - K * Real.exp (-r * T) * normCdf (d2 S K T r v))
      (S * (normPdf (d1 S K T r sigma) * dd)
        - K * Real.exp (-r * T) * (normPdf (d2 S K T r sigma) * (dd - Real.sqrt T))) sigma :=
    (hc1.const_mul _).sub (hc2.const_mul _)
  have hkey := key_identity S K T r sigma hS hK hT hsigma
  have heq : S * (normPdf (d1 S K T r sigma) * dd)
      - K * Real.exp (-r * T) * (normPdf (d2 S K T r sigma) * (dd - Real.sqrt T))
      = S * normPdf (d1 S K T r sigma) * Real.sqrt T := by
    linear_combination (dd - Real.sqrt T) * hkey
  rw [heq] at hsub
  exact hsub.congr_of_eventuallyEq (Filter.Eventually.of_forall (fun v => rfl))

lemma hasDerivAt_bs_put_sigma (S K T r sigma : ℝ) (hS : 0 < S) (hK : 0 < K) (hT : 0 < T)
    (hsigma : 0 < sigma) :
    HasDerivAt (fun v => bs_put S K T r v)
      (S * normPdf (d1 S K T r sigma) * Real.sqrt T) sigma := by
  set dd := (Real.log (S / K) + r * T) / Real.sqrt T * -(sigma ^ 2)⁻¹ + Real.sqrt T / 2
    with hdd
  have hc1 : HasDerivAt (fun v => normCdf (-(d1 S K T r v)))
      (normPdf (-(d1 S K T r sigma)) * -dd) sigma :=
    (hasDerivAt_normCdf (-(d1 S K T r sigma))).comp sigma
      (hasDerivAt_d1_sigma S K T r sigma hT hsigma).neg
  have hc2 : HasDerivAt (fun v => normCdf (-(d2 S K T r v)))
      (normPdf (-(d2 S K T r sigma)) * -(dd - Real.sqrt T)) sigma :=
    (hasDerivAt_normCdf (-(d2 S K T r sigma))).comp sigma
      (hasDerivAt_d2_sigma S K T r sigma hT hsigma).neg
  have hsub : HasDerivAt
      (fun v => K * Real.exp (-r * T) * normCdf (-(d2 S K T r v))
        - S * normCdf (-(d1 S K T r v)))
      (K * Real.exp (-r * T) * (normPdf (-(d2 S K T r sigma)) * -(dd - Real.sqrt T))
        - S * (normPdf (-(d1 S K T r sigma)) * -dd)) sigma :=
    (hc2.const_mul _).sub (hc1.const_mul _)
  have hkey := key_identity S K T r sigma hS hK hT hsigma
  have heq : K * Real.exp (-r * T) * (normPdf (-(d2 S K T r sigma)) * -(dd - Real.sqrt T))
      - S * (normPdf (-(d1 S K T r sigma)) * -dd)
      = S * normPdf (d1 S K T r sigma) * Real.sqrt T := by
    rw [normPdf_even, normPdf_even]
    linear_combination (dd - Real.sqrt T) * hkey
  rw [heq] at hsub
  exact hsub.congr_of_eventuallyEq (Filter.Eventually.of_forall (fun v => rfl))

lemma bs_call_strictMonoOn_sigma (S K T r : ℝ) (hS : 0 < S) (hK : 0 < K) (hT : 0 < T) :
    StrictMonoOn (fun v => bs_call S K T r v) (Set.Ioi 0) := by
  apply strictMonoOn_of_deriv_pos (convex_Ioi 0)
  · intro v hv
    exact (hasDerivAt_bs_call_sigma S K T r v hS hK hT hv).continuousAt.continuousWithinAt
  · intro v hv
    rw [interior_Ioi] at hv
    rw [(hasDerivAt_bs_call_sigma S K T r v hS hK hT hv).deriv]
    have := normPdf_pos (d1 S K T r v)
    have := Real.sqrt_pos.mpr hT
    positivity

lemma bs_put_strictMonoOn_sigma (S K T r : ℝ) (hS : 0 < S) (hK : 0 < K) (hT : 0 < T) :
    StrictMonoOn (fun v => bs_put S K T r v) (Set.Ioi 0) := by
  apply strictMonoOn_of_deriv_pos (convex_Ioi 0)
  · intro v hv
    exact (hasDerivAt_bs_put_sigma S K T r v hS hK hT hv).continuousAt.continuousWithinAt
  · intro v hv
    rw [interior_Ioi] at hv
    rw [(hasDerivAt_bs_put_sigma S K T r v hS hK hT hv).deriv]
    have := normPdf_pos (d1 S K T r v)
    have := Real.sqrt_pos.mpr hT
    positivity

lemma bs_call_le (S K T r sigma : ℝ) (hS : 0 ≤ S) (hK : 0 ≤ K) :
    bs_call S K T r sigma ≤ S := by
  rw [bs_call]
  have h1 : S * normCdf (d1 S K T r sigma) ≤ S * 1 :=
    mul_le_mul_of_nonneg_left (normCdf_le_one _) hS
  have h2 : 0 ≤ K * Real.exp (-r * T) * normCdf (d2 S K T r sigma) :=
    mul_nonneg (mul_nonneg hK (Real.exp_pos _).le) (normCdf_nonneg _)
  linarith

lemma brentq_exact_root (F : ℝ → ℝ) (a b x0 : ℝ)
    (hmono : StrictMonoOn F (Set.Icc a b)) (hx0 : x0 ∈ Set.Icc a b) :
    brentq (fun sigma => Except.ok (F sigma - F x0)) a b = Except.ok x0 := by
  have hab : a ≤ b := le_trans hx0.1 hx0.2
  have hamem : a ∈ Set.Icc a b := ⟨le_refl a, hab⟩
  have hbmem : b ∈ Set.Icc a b := ⟨hab, le_refl b⟩
  have hfa : F a - F x0 ≤ 0 := by
    have := hmono.monotoneOn hamem hx0 hx0.1
    linarith
  have hfb : 0 ≤ F b - F x0 := by
    have := hmono.monotoneOn hx0 hbmem hx0.2
    linarith
  have hnot : ¬ 0 < (F a - F x0) * (F b - F x0) := by
    push_neg
    nlinarith
  have hex : ∃ x, x ∈ Set.Icc a b ∧
      (fun sigma => Except.ok (F sigma - F x0) : ℝ → Except PriceError ℝ) x
        = Except.ok 0 := ⟨x0, hx0, by simp⟩
  simp only [brentq]
  rw [if_neg hnot, dif_pos hex]
  obtain ⟨hmem, hroot⟩ := hex.choose_spec
  have hval : F hex.choose = F x0 := by
    have := Except.ok.inj hroot
    linarith
  exact congrArg Except.ok (hmono.injOn hmem hx0 hval)

/-- C1: Put-call parity: for every parameter set with S > 0, K > 0, T > 0, sigma > 0,
the call price minus the put price returned by the closed-form pricer equals
S*exp(-q*T) - K*exp(-r*T) (with q = 0, hence S - K*exp(-r*T), for the non-dividend
pricer); over the reals the identity is exact, hence within any floating-point
tolerance. -/
theorem C1_put_call_parity (S K T r sigma q : ℝ)
    (hS : 0 < S) (hK : 0 < K) (hT : 0 < T) (hsigma : 0 < sigma) :
    black_scholes S K T r sigma "call" = Except.ok (bs_call S K T r sigma) ∧
    black_scholes S K T r sigma "put" = Except.ok (bs_put S K T r sigma) ∧
    bs_call S K T r sigma - bs_put S K T r sigma = S - K * Real.exp (-r * T) ∧
    black_scholes_with_dividends S K T r sigma q "call"
      - black_scholes_with_dividends S K T r sigma q "put"
      = S * Real.exp (-q * T) - K * Real.exp (-r * T) := by
  refine ⟨rfl, rfl, ?_, ?_⟩
  · have h1 := normCdf_add_neg (d1 S K T r sigma)
    have h2 := normCdf_add_neg (d2 S K T r sigma)
    rw [bs_call, bs_put]
    linear_combination S * h1 - K * Real.exp (-r * T) * h2
  · have h1 := normCdf_add_neg
      ((Real.log (S / K) + (r - q + 0.5 * sigma ^ 2) * T) / (sigma * Real.sqrt T))
    have h2 := normCdf_add_neg
      ((Real.log (S / K) + (r - q + 0.5 * sigma ^ 2) * T) / (sigma * Real.sqrt T)
        - sigma * Real.sqrt T)
    simp only [black_scholes_with_dividends, if_pos, if_neg, String.reduceEq, ite_true,
      ite_false, reduceIte]
    linear_combination S * Real.exp (-q * T) * h1 - K * Real.exp (-r * T) * h2

/-- C1 witness: the parity conclusions hold at S = K = 100, T = 1, r = 0.05,
sigma = 0.2, q = 0.03. -/
theorem C1_put_call_parity_witness :
    0 < (100 : ℝ) ∧ 0 < (1 : ℝ) ∧ 0 < (2 / 10 : ℝ) ∧
    bs_call 100 100 1 (5 / 100) (2 / 10) - bs_put 100 100 1 (5 / 100) (2 / 10)
      = 100 - 100 * Real.exp (-(5 / 100) * 1) :=
  ⟨by norm_num, by norm_num, by norm_num,
    (C1_put_call_parity 100 100 1 (5 / 100) (2 / 10) (3 / 100)
      (by norm_num) (by norm_num) (by norm_num) (by norm_num)).2.2.1⟩

/-- C3 counterexample: with sigma = 0 (and S = K = 100, T = 1, r = 0.05) the
pricer does not raise InvalidInput: it returns a numeric value, so the claim
"price with sigma = 0 raises InvalidInput" is false on the code. -/
theorem C3_counterexample :
    black_scholes 100 100 1 (5 / 100) 0 "call"
      = Except.ok (bs_call 100 100 1 (5 / 100) 0) := rfl

/-- C3 amended: the pricer performs no validation of sigma or T.  For sigma <= 0
or T <= 0 it still returns a numeric value for both valid option types (d1 is
computed through an unguarded division by zero); only an unrecognized option
type raises an error. -/
theorem C3_no_validation (S K T r sigma : ℝ) (h : sigma ≤ 0 ∨ T ≤ 0) :
    black_scholes S K T r sigma "call" = Except.ok (bs_call S K T r sigma) ∧
    black_scholes S K T r sigma "put" = Except.ok (bs_put S K T r sigma) :=
  ⟨rfl, rfl⟩

/-- C3 witness: the amended statement at sigma = 0. -/
theorem C3_no_validation_witness :
    (0 : ℝ) ≤ 0 ∧
    black_scholes 100 100 1 (5 / 100) 0 "put" = Except.ok (bs_put 100 100 1 (5 / 100) 0) :=
  ⟨le_refl 0, (C3_no_validation 100 100 1 (5 / 100) 0 (Or.inl (le_refl 0))).2⟩

/-- C4 counterexample: the dividend-adjusted pricer does not fail on the
unrecognized option type "banana"; it silently returns the put price, so the
claim that both entry points raise InvalidInput is false on the code. -/
theorem C4_counterexample :
    black_scholes_with_dividends 100 100 1 (5 / 100) (2 / 10) 0 "banana"
      = black_scholes_with_dividends 100 100 1 (5 / 100) (2 / 10) 0 "put" := rfl

/-- C4 amended: on an option type that is neither "call" nor "put", the
non-dividend pricer raises InvalidInput, but the dividend-adjusted pricer does
not fail: its bare else branch silently prices the input as a put. -/
theorem C4_invalid_type (S K T r sigma q : ℝ) (option_type : String)
    (hc : option_type ≠ "call") (hp : option_type ≠ "put") :
    black_scholes S K T r sigma option_type = Except.error PriceError.invalidInput ∧
    black_scholes_with_dividends S K T r sigma q option_type
      = black_scholes_with_dividends S K T r sigma q "put" := by
  constructor
  · simp [black_scholes, hc, hp]
  · simp [black_scholes_with_dividends, hc]

/-- C4 witness: the amended statement at option type "banana". -/
theorem C4_invalid_type_witness :
    ("banana" : String) ≠ "call" ∧ ("banana" : String) ≠ "put" ∧
    black_scholes 100 100 1 (5 / 100) (2 / 10) "banana"
      = Except.error PriceError.invalidInput :=
  ⟨by decide, by decide,
    (C4_invalid_type 100 100 1 (5 / 100) (2 / 10) 0 "banana" (by decide) (by decide)).1⟩

/-- C5: for every S > 0, K > 0, T > 0, r, sigma > 0 and option type call or put,
the dividend-adjusted pricer with q = 0 returns exactly the price of the
non-dividend pricer on the same inputs. -/
theorem C5_dividend_refinement (S K T r sigma : ℝ)
    (hS : 0 < S) (hK : 0 < K) (hT : 0 < T) (hsigma : 0 < sigma)
    (option_type : String) (ht : option_type = "call" ∨ option_type = "put") :
    black_scholes S K T r sigma option_type
      = Except.ok (black_scholes_with_dividends S K T r sigma 0 option_type) := by
  rcases ht with h | h <;> subst h <;>
    simp [black_scholes, black_scholes_with_dividends, bs_call, bs_put, d1, d2,
      Real.exp_zero]

/-- C5 witness: the refinement at S = K = 100, T = 1, r = 0.05, sigma = 0.2,
option type "call". -/
theorem C5_dividend_refinement_witness :
    0 < (100 : ℝ) ∧ 0 < (1 : ℝ) ∧ 0 < (2 / 10 : ℝ) ∧
    black_scholes 100 100 1 (5 / 100) (2 / 10) "call"
      = Except.ok (black_scholes_with_dividends 100 100 1 (5 / 100) (2 / 10) 0 "call") :=
  ⟨by norm_num, by norm_num, by norm_num,
    C5_dividend_refinement 100 100 1 (5 / 100) (2 / 10)
      (by norm_num) (by norm_num) (by norm_num) (by norm_num) "call" (Or.inl rfl)⟩

/-- C6: for every S > 0, K > 0, T > 0, r, sigma > 0 and option type call or put,
`black_scholes_greeks` returns the mapping with exactly the five fields Delta,
Gamma, Vega, Theta, Rho given, with d1 and d2 as in the claim, by:
Delta = Phi(d1) for a call and Phi(d1) - 1 for a put; Gamma = phi(d1)/(S*sigma*sqrt T);
Vega = S*phi(d1)*sqrt T divided by 100; Theta = the call resp. put theta divided
by 365; Rho = the call resp. put rho divided by 100. -/
theorem C6_greeks_formulas (S K T r sigma : ℝ)
    (hS : 0 < S) (hK : 0 < K) (hT : 0 < T) (hsigma : 0 < sigma)
    (option_type : String) (ht : option_type = "call" ∨ option_type = "put") :
    black_scholes_greeks S K T r sigma option_type =
      { Delta := if option_type = "call" then normCdf (d1 S K T r sigma)
          else normCdf (d1 S K T r sigma) - 1
        Gamma := normPdf (d1 S K T r sigma) / (S * sigma * Real.sqrt T)
        Vega := S * normPdf (d1 S K T r sigma) * Real.sqrt T / 100
        Theta := (if option_type = "call" then
            -S * normPdf (d1 S K T r sigma) * sigma / (2 * Real.sqrt T)
              - r * K * Real.exp (-r * T) * normCdf (d2 S K T r sigma)
          else
            -S * normPdf (d1 S K T r sigma) * sigma / (2 * Real.sqrt T)
              + r * K * Real.exp (-r * T) * normCdf (-(d2 S K T r sigma))) / 365
        Rho := (if option_type = "call" then
            K * T * Real.exp (-r * T) * normCdf (d2 S K T r sigma)
          else
            -K * T * Real.exp (-r * T) * normCdf (-(d2 S K T r sigma))) / 100 } := by
  rcases ht with h | h <;> subst h <;> rfl

/-- C6 witness: the greeks characterization at S = K = 100, T = 1, r = 0.05,
sigma = 0.2, option type "call". -/
theorem C6_greeks_formulas_witness :
    0 < (100 : ℝ) ∧ 0 < (1 : ℝ) ∧ 0 < (2 / 10 : ℝ) ∧
    (black_scholes_greeks 100 100 1 (5 / 100) (2 / 10) "call").Vega
      = 100 * normPdf (d1 100 100 1 (5 / 100) (2 / 10)) * Real.sqrt 1 / 100 :=
  ⟨by norm_num, by norm_num, by norm_num, by
    rw [C6_greeks_formulas 100 100 1 (5 / 100) (2 / 10)
      (by norm_num) (by norm_num) (by norm_num) (by norm_num) "call" (Or.inl rfl)]⟩

/-- C7: given the stream of standard-normal draws produced by the seeded
generator (numpy's global generator, modelled by the explicit parameter `gen`
with hard-coded seed 42 as in the source), the Monte Carlo estimator returns
exactly exp(-r*T) times the arithmetic mean of the n per-path payoffs
max(ST_i - K, 0) (call) resp. max(K - ST_i, 0) (put), where
ST_i = S*exp((r - 0.5*sigma^2)*T + sigma*sqrt(T)*Z_i); and the result is
deterministic: it depends only on the first n draws of the seed-42 stream, so
two calls with identical arguments (and generators agreeing on that stream)
return the identical value. -/
theorem C7_monte_carlo (gen gen' : ℕ → ℕ → ℝ) (S K T r sigma : ℝ) (n : ℕ)
    (option_type : String) (hagree : ∀ i, i < n → gen 42 i = gen' 42 i) :
    (option_type = "call" →
      monte_carlo_option_price gen S K T r sigma n option_type
        = Real.exp (-r * T) * ((∑ i in Finset.range n,
            max (S * Real.exp ((r - 0.5 * sigma ^ 2) * T
              + sigma * Real.sqrt T * gen 42 i) - K) 0) / n)) ∧
    (option_type = "put" →
      monte_carlo_option_price gen S K T r sigma n option_type
        = Real.exp (-r * T) * ((∑ i in Finset.range n,
            max (K - S * Real.exp ((r - 0.5 * sigma ^ 2) * T
              + sigma * Real.sqrt T * gen 42 i)) 0) / n)) ∧
    monte_carlo_option_price gen S K T r sigma n option_type
      = monte_carlo_option_price gen' S K T r sigma n option_type := by
  refine ⟨?_, ?_, ?_⟩
  · intro h; subst h
    simp [monte_carlo_option_price]
  · intro h; subst h
    simp [monte_carlo_option_price]
  · simp only [monte_carlo_option_price]
    congr 2
    exact Finset.sum_congr rfl
      (fun i hi => by rw [hagree i (Finset.mem_range.mp hi)])

/-- C7 witness: two distinct generators that agree on the seed-42 stream give
the identical estimate at concrete arguments. -/
theorem C7_monte_carlo_witness :
    monte_carlo_option_price (fun _ _ => 0) 100 100 1 (5 / 100) (2 / 10) 2 "call"
      = monte_carlo_option_price (fun s _ => if s = 42 then 0 else 1)
          100 100 1 (5 / 100) (2 / 10) 2 "call" :=
  (C7_monte_carlo (fun _ _ => 0) (fun s _ => if s = 42 then 0 else 1)
    100 100 1 (5 / 100) (2 / 10) 2 "call" (fun i _ => by norm_num)).2.2

/-- C9: for fixed K > 0, T > 0 and rate r, the closed-form call price is strictly
increasing in S on S > 0 and strictly increasing in sigma on sigma > 0, and the
put price is strictly decreasing in S on S > 0. -/
theorem C9_monotonicity (K T r : ℝ) (hK : 0 < K) (hT : 0 < T) :
    (∀ sigma, 0 < sigma →
      StrictMonoOn (fun s => bs_call s K T r sigma) (Set.Ioi 0)) ∧
    (∀ S, 0 < S →
      StrictMonoOn (fun v => bs_call S K T r v) (Set.Ioi 0)) ∧
    (∀ sigma, 0 < sigma →
      StrictAntiOn (fun s => bs_put s K T r sigma) (Set.Ioi 0)) :=
  ⟨fun sigma hs => bs_call_strictMonoOn_S K T r sigma hK hT hs,
   fun S hS => bs_call_strictMonoOn_sigma S K T r hS hK hT,
   fun sigma hs => bs_put_strictAntiOn_S K T r sigma hK hT hs⟩

/-- C9 witness: concrete monotonicity consequences at K = 100, T = 1, r = 0.05,
sigma = 0.2: the call price increases from S = 100 to S = 110 and the put price
decreases. -/
theorem C9_monotonicity_witness :
    0 < (100 : ℝ) ∧ 0 < (1 : ℝ) ∧
    bs_call 100 100 1 (5 / 100) (2 / 10) < bs_call 110 100 1 (5 / 100) (2 / 10) ∧
    bs_put 110 100 1 (5 / 100) (2 / 10) < bs_put 100 100 1 (5 / 100) (2 / 10) := by
  have h := C9_monotonicity 100 1 (5 / 100) (by norm_num) (by norm_num)
  refine ⟨by norm_num, by norm_num, ?_, ?_⟩
  · exact h.1 (2 / 10) (by norm_num) (Set.mem_Ioi.mpr (by norm_num))
      (Set.mem_Ioi.mpr (by norm_num)) (by norm_num)
  · exact h.2.2 (2 / 10) (by norm_num) (Set.mem_Ioi.mpr (by norm_num))
      (Set.mem_Ioi.mpr (by norm_num)) (by norm_num)

/-- C10 (implicit): `black_scholes_greeks` never fails on an unrecognized option
type: for every option type other than "call" it returns the put-side greeks
(its result coincides with the "put" result and its Delta is Phi(d1) - 1),
while the non-dividend pricer rejects such inputs (raising InvalidInput when
the type is also not "put"). -/
theorem C10_greeks_total (S K T r sigma : ℝ) (option_type : String)
    (hc : option_type ≠ "call") :
    black_scholes_greeks S K T r sigma option_type
      = black_scholes_greeks S K T r sigma "put" ∧
    (black_scholes_greeks S K T r sigma option_type).Delta
      = normCdf (d1 S K T r sigma) - 1 ∧
    (option_type ≠ "put" →
      black_scholes S K T r sigma option_type = Except.error PriceError.invalidInput) := by
  refine ⟨?_, ?_, ?_⟩
  · simp [black_scholes_greeks, hc]
  · simp [black_scholes_greeks, hc, d1]
  · intro hp
    simp [black_scholes, hc, hp]

/-- C10 witness: the unrecognized option type "banana" yields the put greeks. -/
theorem C10_greeks_total_witness :
    ("banana" : String) ≠ "call" ∧
    black_scholes_greeks 100 100 1 (5 / 100) (2 / 10) "banana"
      = black_scholes_greeks 100 100 1 (5 / 100) (2 / 10) "put" :=
  ⟨by decide,
    (C10_greeks_total 100 100 1 (5 / 100) (2 / 10) "banana" (by decide)).1⟩

/-- C8: whenever the Brent objective sigma ↦ price(sigma) - target has the same
(strict) sign at both bracket endpoints 1e-5 and 3.0 — that is, it does not
change sign over the bracket — `implied_volatility` fails with NoRootInBracket
and never returns an endpoint or any other value as a root. -/
theorem C8_no_sign_change (target S K T r : ℝ) (option_type : String) (pa pb : ℝ)
    (ha : black_scholes S K T r (1 / 100000) option_type = Except.ok pa)
    (hb : black_scholes S K T r 3 option_type = Except.ok pb)
    (hsign : 0 < (pa - target) * (pb - target)) :
    implied_volatility target S K T r option_type
      = Except.error PriceError.noRootInBracket := by
  rw [implied_volatility]
  simp only [brentq, ha, hb, Except.map]
  rw [if_pos hsign]

/-- C8 witness: the spec's concrete instance: target price 1000 with
S = K = 100 (T = 1, r = 0.05, call) is unreachable — the call price never
exceeds S = 100 — so the solver reports NoRootInBracket. -/
theorem C8_no_sign_change_witness :
    0 < (bs_call 100 100 1 (5 / 100) (1 / 100000) - 1000)
        * (bs_call 100 100 1 (5 / 100) 3 - 1000) ∧
    implied_volatility 1000 100 100 1 (5 / 100) "call"
      = Except.error PriceError.noRootInBracket := by
  have h1 : bs_call 100 100 1 (5 / 100) (1 / 100000) ≤ 100 :=
    bs_call_le 100 100 1 (5 / 100) (1 / 100000) (by norm_num) (by norm_num)
  have h2 : bs_call 100 100 1 (5 / 100) 3 ≤ 100 :=
    bs_call_le 100 100 1 (5 / 100) 3 (by norm_num) (by norm_num)
  have hsign : 0 < (bs_call 100 100 1 (5 / 100) (1 / 100000) - 1000)
      * (bs_call 100 100 1 (5 / 100) 3 - 1000) :=
    mul_pos_of_neg_of_neg (by linarith) (by linarith)
  exact ⟨hsign, C8_no_sign_change 1000 100 100 1 (5 / 100) "call" _ _ rfl rfl hsign⟩

/-- C2: round-trip: for S, K, T > 0, any rate r, option type call or put, and
any sigma0 inside the search bracket [1e-5, 3.0], feeding the closed-form price
at sigma0 back into `implied_volatility` recovers exactly sigma0 (the real-model
root is exact, hence within any solver tolerance). -/
theorem C2_round_trip (S K T r sigma0 : ℝ) (hS : 0 < S) (hK : 0 < K) (hT : 0 < T)
    (option_type : String) (ht : option_type = "call" ∨ option_type = "put")
    (hsigma0 : sigma0 ∈ Set.Icc (1 / 100000 : ℝ) 3) (p : ℝ)
    (hp : black_scholes S K T r sigma0 option_type = Except.ok p) :
    implied_volatility p S K T r option_type = Except.ok sigma0 := by
  have hsub : Set.Icc (1 / 100000 : ℝ) 3 ⊆ Set.Ioi 0 := fun x hx =>
    lt_of_lt_of_le (by norm_num) hx.1
  rcases ht with h | h <;> subst h
  · have hp' : p = bs_call S K T r sigma0 := (Except.ok.inj hp).symm
    subst hp'
    have hmono : StrictMonoOn (fun v => bs_call S K T r v)
        (Set.Icc (1 / 100000 : ℝ) 3) :=
      (bs_call_strictMonoOn_sigma S K T r hS hK hT).mono hsub
    have hfun : (fun sigma => (black_scholes S K T r sigma "call").map
        (fun q => q - bs_call S K T r sigma0))
        = fun sigma => Except.ok (bs_call S K T r sigma - bs_call S K T r sigma0) :=
      funext fun sigma => rfl
    rw [implied_volatility, hfun]
    exact brentq_exact_root (fun v => bs_call S K T r v) _ _ sigma0 hmono hsigma0
  · have hp' : p = bs_put S K T r sigma0 := (Except.ok.inj hp).symm
    subst hp'
    have hmono : StrictMonoOn (fun v => bs_put S K T r v)
        (Set.Icc (1 / 100000 : ℝ) 3) :=
      (bs_put_strictMonoOn_sigma S K T r hS hK hT).mono hsub
    have hfun : (fun sigma => (black_scholes S K T r sigma "put").map
        (fun q => q - bs_put S K T r sigma0))
        = fun sigma => Except.ok (bs_put S K T r sigma - bs_put S K T r sigma0) :=
      funext fun sigma => rfl
    rw [implied_volatility, hfun]
    exact brentq_exact_root (fun v => bs_put S K T r v) _ _ sigma0 hmono hsigma0

/-- C2 witness: the round trip recovers sigma0 = 0.2 at S = K = 100, T = 1,
r = 0.05 for a call. -/
theorem C2_round_trip_witness :
    (2 / 10 : ℝ) ∈ Set.Icc (1 / 100000 : ℝ) 3 ∧
    implied_volatility (bs_call 100 100 1 (5 / 100) (2 / 10)) 100 100 1 (5 / 100) "call"
      = Except.ok (2 / 10) := by
  refine ⟨⟨by norm_num, by norm_num⟩, ?_⟩
  exact C2_round_trip 100 100 1 (5 / 100) (2 / 10) (by norm_num) (by norm_num)
    (by norm_num) "call" (Or.inl rfl) ⟨by norm_num, by norm_num⟩ _ rfl
